import Mathlib

set_option maxRecDepth 8000

namespace CStoNet

/-- Dense rational matrix with untyped (row, column) indices in ℕ.  Entries
outside the logical shape of a tensor are junk that the embedded operations
never consult.  Models a torch tensor of floats with exact rational
arithmetic. -/
abbrev QMat : Type := ℕ → ℕ → ℚ

/-- Embeds the slice assignment `m[:, cols] = v` for a list of column indices
`cols`: column `cols[k]` of the result holds column `k` of `v`. -/
def setCols (cols : List ℕ) (v : QMat) (m : QMat) : QMat :=
  fun b c => if c ∈ cols then v b (cols.indexOf c) else m b c

/-- Embeds the slice read `m[:, cols]`: position `k` reads column `cols[k]`. -/
def selCols (cols : List ℕ) (m : QMat) : QMat :=
  fun b k => m b (cols.getD k 0)

/-- Embeds `nn.MSELoss(reduction='sum')` (field `self.sse`) on the sub-block
of rows below `rows` and columns in `cols`. -/
def sseCols (a b : QMat) (rows : ℕ) (cols : Finset ℕ) : ℚ :=
  ∑ i ∈ Finset.range rows, ∑ j ∈ cols, (a i j - b i j) ^ 2

/-- One entry of `self.mask_mnar` (network.py lines 59-60): ones everywhere,
zero on the observed-indicator columns.  `none` models the configuration
`obs_ind_node=None`, where the Python assignment `mask[:, None] = 0`
broadcasts into a view of the whole tensor and silently zeroes every entry. -/
def mnarMaskEntry (obs : Option (List ℕ)) (c : ℕ) : ℚ :=
  match obs with
  | some l => if c ∈ l then 0 else 1
  | none => 0

/-- Embeds `mnar_masked_para` (line 102) on the affected weight matrix:
elementwise multiplication by the fixed mask. -/
def mnarMaskedW (obs : Option (List ℕ)) (w : QMat) : QMat :=
  fun r c => w r c * mnarMaskEntry obs c

/-- Embeds `prune_masked_para` (lines 107-109) on one parameter tensor:
`para.data[mask] = 0` zeroes every entry flagged by the boolean mask. -/
def pruneMaskedW (mask : ℕ → ℕ → Bool) (w : QMat) : QMat :=
  fun r c => if mask r c then 0 else w r c

/-- Family of the linear-layer weight matrices of `module_list`, indexed by
module position `0 .. num_hidden`. -/
abbrev WFam := ℕ → QMat

/-- Construction-time MNAR masking (lines 59-61): the weight of the linear
layer inside `module_list[treat_layer+2]` is multiplied by the mask; all
other module weights are untouched. -/
def mnarMaskFam (tl : ℕ) (obs : Option (List ℕ)) (w : WFam) : WFam :=
  Function.update w (tl + 2) (mnarMaskedW obs (w (tl + 2)))

/-- `prune_masked_para` over every named parameter (here: every module
weight), each with its own boolean mask. -/
def pruneFam (mask : ℕ → ℕ → ℕ → Bool) (w : WFam) : WFam :=
  fun j => pruneMaskedW (mask j) (w j)

/-- Weight state after the preamble of `forward` (lines 76-80) in mnar mode:
the prune mask is applied first when pruning is active, then the mnar mask is
re-applied. -/
def forwardMaskedW (pruneFlag : Bool) (pmask : ℕ → ℕ → ℕ → Bool) (tl : ℕ)
    (obs : Option (List ℕ)) (w : WFam) : WFam :=
  mnarMaskFam tl obs (if pruneFlag then pruneFam pmask w else w)

/-- The `miss_pattern` constructor argument. -/
inductive MissPat
  | nopat
  | mar
  | mnar
deriving DecidableEq

/-- The constructor arguments of `StoNet_Causal.__init__` that matter for
construction-time behaviour. -/
structure InitCfg where
  numHidden : ℕ
  inputDim : ℕ
  hiddenDim : List ℕ
  outputDim : ℕ
  treatLayer : ℕ
  treatNode : List ℕ
  missCol : Option (List ℕ)
  obsIndNode : Option (List ℕ)
  missPattern : MissPat

/-- The parts of the constructed network state that the claims consult. -/
structure SNModel where
  weights : WFam
  maskMnar : Option QMat

/-- Shallow embedding of `StoNet_Causal.__init__` (lines 7-73).  The source
performs no configuration validation whatsoever: no shape check on
`treat_node` or `obs_ind_node`, no check on `sigma_list` (which is not even a
constructor parameter), and no check that `obs_ind_node` is present in mnar
mode.  The only failure Python can raise on these inputs is the IndexError
from `self.module_list[self.treat_layer+2]` in the mnar branch, since
`module_list` has `num_hidden + 1` entries. -/
def stoNetInit (c : InitCfg) (w0 : WFam) : Except String SNModel :=
  if c.missPattern = MissPat.mnar then
    if c.treatLayer + 2 < c.numHidden + 1 then
      Except.ok
        { weights := mnarMaskFam c.treatLayer c.obsIndNode w0,
          maskMnar := some (fun _ col => mnarMaskEntry c.obsIndNode col) }
    else Except.error "IndexError: list index out of range"
  else Except.ok { weights := w0, maskMnar := none }

/-- True when the embedded constructor returned normally. -/
def exceptIsOk (e : Except String SNModel) : Bool :=
  match e with
  | Except.ok _ => true
  | Except.error _ => false

/-- Configuration of the feed-forward pass `forward` (lines 75-91).  The
layer transforms `mods` (linear map plus optional Tanh, with the weights
baked in) and the exponential `expf` used by softmax and sigmoid are supplied
by the external tensor engine. -/
structure FwdCfg where
  L : ℕ
  tl : ℕ
  tn : List ℕ
  isCat : Bool
  treat : QMat
  mods : ℕ → QMat → QMat
  expf : ℚ → ℚ

/-- The treatment overwrite `x[:, self.treat_node] = treat` applied at the
treatment layer only (line 90). -/
def owF (c : FwdCfg) (j : ℕ) (z : QMat) : QMat :=
  if j = c.tl then setCols c.tn c.treat z else z

/-- Value of the loop variable `x` in `forward` after the iteration for
layer `j` (module application followed by the possible treatment
overwrite). -/
def fwdAfter (c : FwdCfg) (x : QMat) : ℕ → QMat
  | 0 => owF c 0 (c.mods 0 x)
  | j + 1 => owF c (j + 1) (c.mods (j + 1) (fwdAfter c x j))

/-- Value of `x` in `forward` right after applying module `j`, before any
overwrite at layer `j`: the tensor from which the propensity logits are
cloned when `j` is the treatment layer (line 85). -/
def fwdPre (c : FwdCfg) (x : QMat) : ℕ → QMat
  | 0 => c.mods 0 x
  | j + 1 => c.mods (j + 1) (fwdAfter c x j)

/-- The plain composition of the layer transforms with no treatment
overwrite anywhere. -/
def chainNoOw (c : FwdCfg) (x : QMat) : ℕ → QMat
  | 0 => c.mods 0 x
  | j + 1 => c.mods (j + 1) (chainNoOw c x j)

/-- `torch.softmax(logits, dim=1)` over positions `0 .. len-1`, with the
external exponential `expf`. -/
def softmaxQ (expf : ℚ → ℚ) (len : ℕ) (lg : QMat) : QMat :=
  fun b k => expf (lg b k) / ∑ k2 ∈ Finset.range len, expf (lg b k2)

/-- `torch.sigmoid` on one entry. -/
def sigmoidQ (expf : ℚ → ℚ) (t : ℚ) : ℚ :=
  1 / (1 + expf (-t))

/-- The propensity score built from the treatment-column logits
(lines 85-89): softmax across the treatment columns for a categorical
treatment, elementwise sigmoid for a binary treatment. -/
def psOf (c : FwdCfg) (lg : QMat) : QMat :=
  if c.isCat = true then softmaxQ c.expf c.tn.length lg
  else fun b k => sigmoidQ c.expf (lg b k)

/-- The propensity score `ps` returned by `forward`. -/
def fwdPS (c : FwdCfg) (x : QMat) : QMat :=
  psOf c (selCols c.tn (fwdPre c x c.tl))

/-- The final-layer output returned by `forward`. -/
def fwdOut (c : FwdCfg) (x : QMat) : QMat :=
  fwdAfter c x c.L

/-- Context of `likelihood_latent` (lines 143-208): batch size, number of
hidden layers, per-layer widths, the layer transforms, the treatment and
observed-indicator column lists, and the external label losses
(`self.treat_loss`, `self.obs_ind_loss`). -/
structure LLCtx where
  B : ℕ
  L : ℕ
  dimv : ℕ → ℕ
  mods : ℕ → QMat → QMat
  tl : ℕ
  tn : List ℕ
  tloss : QMat → QMat → ℚ
  mnar : Bool
  obsN : List ℕ
  oloss : QMat → QMat → ℚ

/-- Shallow embedding of `likelihood_latent`.  The branch structure, branch
order, slicing bounds and sigma scalings follow lines 145-208 exactly.  A
scalar `treat_node` is represented as a singleton list, for which
`headD`/`getLastD` coincide with the scalar lower/upper bounds of the
source. -/
def likelihoodLatent (c : LLCtx) (outLoss : QMat → QMat → ℚ) (fh : QMat)
    (hid : ℕ → QMat) (k : ℕ) (sig : ℕ → ℚ) (y : QMat) (tw ow : ℚ) : ℚ :=
  if k = 0 then
    -(sseCols fh (hid 0) c.B (Finset.range (c.dimv 0))) / (2 * sig 0)
  else if k = c.tl then
    let z := c.mods k (hid (k - 1))
    let lower := c.tn.headD 0
    let upper := c.tn.getLastD 0
    (-(c.tloss (selCols c.tn z) (selCols c.tn (hid k))) * tw
      + -(sseCols z (hid k) c.B (Finset.range lower)) / (2 * sig k)
      + -(sseCols z (hid k) c.B (Finset.Ico (upper + 1) (c.dimv k))) / (2 * sig k))
  else if k = c.L then
    -(outLoss (c.mods k (hid (k - 1))) y) / (2 * sig c.L)
  else if c.mnar = true ∧ k = c.tl + 1 then
    let m := c.mods k (hid (k - 1))
    let lower := c.obsN.headD 0
    let upper := c.obsN.getLastD 0
    (-(c.oloss (selCols c.obsN m) (selCols c.obsN (hid k))) * ow
      + -(sseCols m (hid k) c.B (Finset.range lower)) / (2 * sig k)
      + -(sseCols m (hid k) c.B (Finset.Ico (upper + 1) (c.dimv k))) / (2 * sig k))
  else
    -(sseCols (c.mods k (hid (k - 1))) (hid k) c.B (Finset.range (c.dimv k))) / (2 * sig k)

/-- Batch sample mean of column `p`, as in `graph_x.mean(dim=0)`. -/
def meanQ (B : ℕ) (X : QMat) (p : ℕ) : ℚ :=
  (∑ b ∈ Finset.range B, X b p) / (B : ℚ)

/-- Entry `(p, q)` of the batch sample covariance `graph_x.T.cov()`
(torch default correction 1, so the divisor is `B - 1`). -/
def covQ (B : ℕ) (X : QMat) (p q : ℕ) : ℚ :=
  (∑ b ∈ Finset.range B, (X b p - meanQ B X p) * (X b q - meanQ B X q)) / ((B : ℚ) - 1)

/-- Explicit inverse of a square rational matrix through the adjugate; equals
the Mathlib inverse and is exact on invertible matrices. -/
def invQ {k : ℕ} (A : Matrix (Fin k) (Fin k) ℚ) : Matrix (Fin k) (Fin k) ℚ :=
  (A.det)⁻¹ • A.adjugate

/-- Embeds `torch.linalg.solve(A, v)`: the exact solution `A⁻¹ v` of the
linear system, computed through the adjugate. -/
def linSolve {k : ℕ} (A : Matrix (Fin k) (Fin k) ℚ) (v : Fin k → ℚ) : Fin k → ℚ :=
  (A.det)⁻¹ • (A.adjugate.mulVec v)

/-- The joint sub-vector `graph_x = x_impute[:, graph_idx]` of one
conditioning group, position `p` reading column `graph_idx[p]`. -/
def subXof (xi : QMat) (g : List ℕ) : QMat :=
  fun b p => xi b (g.getD p 0)

/-- The conditioning block `graph_cov[1:, 1:]` of the sample covariance. -/
def s22of (B : ℕ) (X : QMat) (k : ℕ) : Matrix (Fin k) (Fin k) ℚ :=
  Matrix.of fun a b2 => covQ B X (a.1 + 1) (b2.1 + 1)

/-- The cross-covariance column `graph_cov[1:, 0]`. -/
def s21of (B : ℕ) (X : QMat) (k : ℕ) : Fin k → ℚ :=
  fun a => covQ B X (a.1 + 1) 0

/-- The cross-covariance row `graph_cov[0, 1:]`. -/
def s12of (B : ℕ) (X : QMat) (k : ℕ) : Fin k → ℚ :=
  fun a => covQ B X 0 (a.1 + 1)

/-- The centred conditioning covariates `graph_x[:, 1:] - graph_mean[1:]` of
batch row `b`. -/
def devOf (B : ℕ) (X : QMat) (k : ℕ) (b : ℕ) : Fin k → ℚ :=
  fun a => X b (a.1 + 1) - meanQ B X (a.1 + 1)

/-- One missing column's contribution to `likelihood_miss` (lines 117-139):
`temp` is the linear solve of the conditioning block against the
cross-covariance, the conditional mean adds the centred covariates times
`temp` to the mean of position 0, the conditional variance subtracts
`temp · graph_cov[1:, 0]` from `graph_cov[0, 0]`, and the result is
`-sse(actual, cond_mean) / (2 * cond_cov)`. -/
def missTerm (B : ℕ) (xi : QMat) (mc : ℕ) : List ℕ → ℚ
  | [] => 0
  | c0 :: rest =>
    let X := subXof xi (c0 :: rest)
    let k := rest.length
    let temp := linSolve (s22of B X k) (s21of B X k)
    let cmean : ℕ → ℚ := fun b =>
      meanQ B X 0 + Matrix.dotProduct (devOf B X k b) temp
    let cvar : ℚ := (covQ B X 0 0 - Matrix.dotProduct temp (s21of B X k))
    (-(∑ b ∈ Finset.range B, (xi b mc - cmean b) ^ 2) / (2 * cvar))

/-- Embedding of `likelihood_miss` (lines 115-141): the sum of the per-column
contributions over all missing columns. -/
def likelihoodMiss (B : ℕ) (xi : QMat) (missCols : List ℕ)
    (graph : List (List ℕ)) : ℚ :=
  ∑ i ∈ Finset.range missCols.length, missTerm B xi (missCols.getD i 0) (graph.getD i [])

/-- Spec-side formula for one missing column, following the words of the
specification for the missing-covariate likelihood: the Gaussian conditional
mean `mu_1 + Sigma_12 Sigma_22^{-1} (X_2 - mu_2)` and conditional variance
`Sigma_11 - Sigma_12 Sigma_22^{-1} Sigma_21`, accumulated as
`-sumSquaredError(actual, conditionalMean) / (2 * conditionalVariance)`. -/
def missTermGauss (B : ℕ) (xi : QMat) (mc : ℕ) : List ℕ → ℚ
  | [] => 0
  | c0 :: rest =>
    let X := subXof xi (c0 :: rest)
    let k := rest.length
    let N := invQ (s22of B X k)
    let cmean : ℕ → ℚ := fun b =>
      meanQ B X 0 + Matrix.dotProduct (s12of B X k) (N.mulVec (devOf B X k b))
    let cvar : ℚ := (covQ B X 0 0 - Matrix.dotProduct (s12of B X k) (N.mulVec (s21of B X k)))
    (-(∑ b ∈ Finset.range B, (xi b mc - cmean b) ^ 2) / (2 * cvar))

/-- Spec-side missing-covariate likelihood: sum of the Gaussian conditional
terms over all missing columns. -/
def likelihoodMissGauss (B : ℕ) (xi : QMat) (missCols : List ℕ)
    (graph : List (List ℕ)) : ℚ :=
  ∑ i ∈ Finset.range missCols.length, missTermGauss B xi (missCols.getD i 0) (graph.getD i [])

/-- Mutable state of one `backward_imputation` call: the hidden and momentum
lists (layer index, batch row, column), the input tensor `x`, the
missing-value momentum `x_miss_momentum` (position-indexed like
`x[:, miss_col]`), and the cached `forward_hidden`. -/
structure SamSt where
  hidden : ℕ → QMat
  mom : ℕ → QMat
  xcur : QMat
  xmom : QMat
  fh : QMat

/-- Static configuration of one `backward_imputation` call.  The per-layer
likelihood gradients accumulated by the two `backward()` calls (lines
240-246) and the gradient of the missing-data likelihoods with respect to
`x_impute` (lines 268-272) are supplied by the external autodiff engine,
modelled as the oracles `grad` and `gradX`, functions of the step index, the
layer index and the full current state.  The standard-normal draws of the
sampler are the oracle streams `noise`/`noiseX`, and `nscale` models the
factor `np.sqrt(2*alpha)` they are multiplied with. -/
structure SamCfg where
  L : ℕ
  tl : ℕ
  tn : List ℕ
  treat : QMat
  mnar : Bool
  obsN : List ℕ
  obsVal : QMat
  mods : ℕ → QMat → QMat
  x0 : QMat
  alpha : ℚ
  nscale : ℚ
  lr : ℕ → ℚ
  grad : ℕ → ℕ → SamSt → QMat
  noise : ℕ → ℕ → QMat
  hasMiss : Bool
  mcol : List ℕ
  missInd : QMat
  missLr : ℚ
  gradX : ℕ → SamSt → QMat
  noiseX : ℕ → QMat

/-- Initialization of `hidden_list` (lines 213-220): a single deterministic
forward pass; the loop over layers starts at layer 1, so the treatment
overwrite `hidden_list[-1][:, treat_node] = treat` is reachable only for
layer indices `1 .. num_hidden - 1` and is skipped when `treat_layer = 0`. -/
def initHidden (cf : SamCfg) : ℕ → QMat
  | 0 => cf.mods 0 cf.x0
  | l + 1 =>
    let z := cf.mods (l + 1) (initHidden cf l)
    if l + 1 = cf.tl then setCols cf.tn cf.treat z else z

/-- State at the start of the sampler loop (lines 213-232): hidden list from
the forward pass, the mnar overwrite of the observed-indicator columns of
layer `treat_layer + 1` with `1 - miss_ind` (modelled by `obsVal`), zero
momentum lists, and `forward_hidden` cloned from `hidden_list[0]`. -/
def initSt (cf : SamCfg) : SamSt :=
  { hidden := fun l =>
      if cf.mnar = true ∧ l = cf.tl + 1 then setCols cf.obsN cf.obsVal (initHidden cf l)
      else initHidden cf l,
    mom := fun _ => fun _ _ => 0,
    xcur := cf.x0,
    xmom := fun _ _ => 0,
    fh := initHidden cf 0 }

/-- The Python `hidden_list` as a list: exactly `num_hidden` tensors. -/
def initHiddenList (cf : SamCfg) : List QMat :=
  (List.range cf.L).map (initHidden cf)

/-- One layer update of the SGHMC sweep (lines 238-261): momentum gets
exponential decay `(1 - alpha)` plus `lr` times the likelihood gradient plus
the scaled Gaussian draw; the treatment columns of the treatment layer and
(under mnar) the observed-indicator columns of the next layer are zeroed in
the momentum; then `hidden += lr * momentum`. -/
def layerUpdate (cf : SamCfg) (step l : ℕ) (st : SamSt) : SamSt :=
  let g := cf.grad step l st
  let m1 : QMat := fun b j =>
    ((1 - cf.alpha) * st.mom l b j + cf.lr l * g b j + cf.noise step l b j * cf.nscale)
  let m2 : QMat := (if l = cf.tl then setCols cf.tn (fun _ _ => 0) m1 else m1)
  let m3 : QMat :=
    (if cf.mnar = true ∧ l = cf.tl + 1 then setCols cf.obsN (fun _ _ => 0) m2 else m2)
  { st with
    mom := Function.update st.mom l m3,
    hidden := Function.update st.hidden l (fun b j => st.hidden l b j + cf.lr l * m3 b j) }

/-- The reversed-order sweep over hidden layers `num_hidden - 1 .. 0`
(line 237). -/
def sweep (cf : SamCfg) (step : ℕ) (st : SamSt) : SamSt :=
  ((List.range cf.L).reverse).foldl (fun s l => layerUpdate cf step l s) st

/-- The missing-value imputation step (lines 263-281): the momentum over the
missing columns gets decay plus `miss_lr` times the gradient plus scaled
noise, is masked by `miss_ind` so that only entries flagged missing keep a
nonzero update, and `x[:, miss_col] += miss_lr * momentum` is applied in
place; finally `forward_hidden` is refreshed from the first module. -/
def xUpdate (cf : SamCfg) (step : ℕ) (st : SamSt) : SamSt :=
  if cf.hasMiss = true then
    let gx := selCols cf.mcol (cf.gradX step st)
    let xm1 : QMat := fun b k =>
      ((1 - cf.alpha) * st.xmom b k + cf.missLr * gx b k + cf.noiseX step b k * cf.nscale)
    let xm2 : QMat := fun b k => xm1 b k * cf.missInd b k
    let xn : QMat := fun b c =>
      (if c ∈ cf.mcol then st.xcur b c + cf.missLr * xm2 b (cf.mcol.indexOf c)
       else st.xcur b c)
    { st with xcur := xn, xmom := xm2, fh := cf.mods 0 xn }
  else st

/-- One full Monte Carlo step: the layer sweep followed by the missing-value
imputation. -/
def fullStep (cf : SamCfg) (step : ℕ) (st : SamSt) : SamSt :=
  xUpdate cf step (sweep cf step st)

/-- State of `backward_imputation` after `n` of the `mh_step` iterations. -/
def runSampler (cf : SamCfg) : ℕ → SamSt
  | 0 => initSt cf
  | n + 1 => fullStep cf n (runSampler cf n)

/-- Heavy-ball reference: the exact `alpha = 0` specialization of the layer
update, with no decay and no noise term, momentum accumulating as
`m += lr * grad` and `hidden += lr * m`. -/
def hbLayerUpdate (cf : SamCfg) (step l : ℕ) (st : SamSt) : SamSt :=
  let g := cf.grad step l st
  let m1 : QMat := fun b j => (st.mom l b j + cf.lr l * g b j)
  let m2 : QMat := (if l = cf.tl then setCols cf.tn (fun _ _ => 0) m1 else m1)
  let m3 : QMat :=
    (if cf.mnar = true ∧ l = cf.tl + 1 then setCols cf.obsN (fun _ _ => 0) m2 else m2)
  { st with
    mom := Function.update st.mom l m3,
    hidden := Function.update st.hidden l (fun b j => st.hidden l b j + cf.lr l * m3 b j) }

/-- Heavy-ball reference sweep. -/
def hbSweep (cf : SamCfg) (step : ℕ) (st : SamSt) : SamSt :=
  ((List.range cf.L).reverse).foldl (fun s l => hbLayerUpdate cf step l s) st

/-- Heavy-ball reference missing-value step. -/
def hbXUpdate (cf : SamCfg) (step : ℕ) (st : SamSt) : SamSt :=
  if cf.hasMiss = true then
    let gx := selCols cf.mcol (cf.gradX step st)
    let xm1 : QMat := fun b k => (st.xmom b k + cf.missLr * gx b k)
    let xm2 : QMat := fun b k => xm1 b k * cf.missInd b k
    let xn : QMat := fun b c =>
      (if c ∈ cf.mcol then st.xcur b c + cf.missLr * xm2 b (cf.mcol.indexOf c)
       else st.xcur b c)
    { st with xcur := xn, xmom := xm2, fh := cf.mods 0 xn }
  else st

/-- Heavy-ball reference trajectory: deterministic, same initialization. -/
def hbRun (cf : SamCfg) : ℕ → SamSt
  | 0 => initSt cf
  | n + 1 => hbXUpdate cf n (hbSweep cf n (hbRun cf n))

/-- Plain gradient-ascent reference, modelled from the words of the spec for
scenario C: a deterministic reference that "updates each latent by lr times
the likelihood gradient alone (no momentum accumulation)"; the externally
fixed columns (treatment, observed indicator) are still held fixed, and the
missing-value update is likewise `x += miss_lr * masked gradient`. -/
def gaLayerUpdate (cf : SamCfg) (step l : ℕ) (st : SamSt) : SamSt :=
  let g := cf.grad step l st
  let g2 : QMat := (if l = cf.tl then setCols cf.tn (fun _ _ => 0) g else g)
  let g3 : QMat :=
    (if cf.mnar = true ∧ l = cf.tl + 1 then setCols cf.obsN (fun _ _ => 0) g2 else g2)
  { st with
    hidden := Function.update st.hidden l (fun b j => st.hidden l b j + cf.lr l * g3 b j) }

/-- Plain gradient-ascent reference sweep. -/
def gaSweep (cf : SamCfg) (step : ℕ) (st : SamSt) : SamSt :=
  ((List.range cf.L).reverse).foldl (fun s l => gaLayerUpdate cf step l s) st

/-- Plain gradient-ascent reference missing-value step. -/
def gaXUpdate (cf : SamCfg) (step : ℕ) (st : SamSt) : SamSt :=
  if cf.hasMiss = true then
    let gx := selCols cf.mcol (cf.gradX step st)
    let gm : QMat := fun b k => gx b k * cf.missInd b k
    let xn : QMat := fun b c =>
      (if c ∈ cf.mcol then st.xcur b c + cf.missLr * gm b (cf.mcol.indexOf c)
       else st.xcur b c)
    { st with xcur := xn, fh := cf.mods 0 xn }
  else st

/-- Plain gradient-ascent reference trajectory. -/
def gaRun (cf : SamCfg) : ℕ → SamSt
  | 0 => initSt cf
  | n + 1 => gaXUpdate cf n (gaSweep cf n (gaRun cf n))

/-- All-ones weight family, used by concrete instances. -/
def onesW : WFam := fun _ _ _ => 1

/-- A neutral sampler configuration that the concrete instances below
specialize. -/
def baseSam : SamCfg :=
  { L := 1, tl := 0, tn := [0], treat := fun _ _ => 0, mnar := false,
    obsN := [], obsVal := fun _ _ => 0, mods := fun _ _ => fun _ _ => 0,
    x0 := fun _ _ => 0, alpha := 0, nscale := 0, lr := fun _ => 1,
    grad := fun _ _ _ => fun _ _ => 0, noise := fun _ _ => fun _ _ => 0,
    hasMiss := false, mcol := [], missInd := fun _ _ => 0, missLr := 0,
    gradX := fun _ _ => fun _ _ => 0, noiseX := fun _ => fun _ _ => 0 }

/-- Failing input for the claim C1 evaluation: one hidden layer,
`treat_layer = 0`, binary treatment at column 0, first module constantly 5,
realized treatment constantly 7. -/
def c1Cfg : SamCfg :=
  { baseSam with mods := fun _ _ => fun _ _ => 5, treat := fun _ _ => 7 }

/-- Concrete sampler configuration for the claim C3 counterexample: one
hidden layer of width 2, `alpha = 0`, learning rate 1/2, constant likelihood
gradient 1, treatment pinned at column 0 so column 1 moves freely. -/
def c3Cfg : SamCfg :=
  { baseSam with lr := fun _ => 1 / 2, grad := fun _ _ _ => fun _ _ => 1 }

/-- The claim C3 witness configuration: same as `c3Cfg` but with a nonzero
noise stream, showing that at `alpha = 0` the draws are ignored. -/
def c3CfgN : SamCfg :=
  { c3Cfg with noise := fun _ _ => fun _ _ => 7 }

/-- Concrete sampler configuration exercising the missing-value imputation
for the claim C5 witness: two missing columns, the flag of batch row 0 at
position 0 cleared, nonzero gradients everywhere. -/
def c5Cfg : SamCfg :=
  { baseSam with
    hasMiss := true, mcol := [0, 1],
    missInd := fun _ k => if k = 0 then 0 else 1, missLr := 1,
    gradX := fun _ _ => fun _ _ => 3, x0 := fun _ _ => 2,
    grad := fun _ _ _ => fun _ _ => 1 }

/-- Likelihood context for the claim C2 counterexample: `treat_layer = 0`,
one hidden layer of width 1 whose only column is the treatment column. -/
def c2Cex : LLCtx :=
  { B := 1, L := 1, dimv := fun _ => 1, mods := fun _ _ => fun _ _ => 0,
    tl := 0, tn := [0], tloss := fun _ _ => 0, mnar := false, obsN := [],
    oloss := fun _ _ => 0 }

/-- Constant hidden list used by the concrete claim C2 instances. -/
def c2Hid : ℕ → QMat := fun _ _ _ => 1

/-- Likelihood context for the claim C2 witness: `treat_layer = 1` with a
width-3 hidden layer and the contiguous treatment block `[1]`. -/
def c2Wctx : LLCtx :=
  { B := 1, L := 2, dimv := fun _ => 3, mods := fun _ m => fun b j => m b j + 1,
    tl := 1, tn := [1], tloss := fun a b => a 0 0 - b 0 0, mnar := false,
    obsN := [], oloss := fun _ _ => 0 }

/-- Forward configuration for the claim C7 witness: two hidden layers,
categorical treatment on columns 0 and 1 of layer 0, constant external
exponential. -/
def c7W : FwdCfg :=
  { L := 2, tl := 0, tn := [0, 1], isCat := true, treat := fun _ _ => 1,
    mods := fun _ m => fun b j => m b j + 1, expf := fun _ => 1 }

/-- Invalid construction input for claim C9: `treat_node = [5]` indexes
column 5 of the width-2 hidden layer 0; `miss_pattern` is left unset. -/
def c9BadCfg : InitCfg :=
  { numHidden := 1, inputDim := 2, hiddenDim := [2], outputDim := 1,
    treatLayer := 0, treatNode := [5], missCol := none, obsIndNode := none,
    missPattern := MissPat.nopat }

/-- Invalid construction input for claim C9: mnar mode with
`obs_ind_node = None`. -/
def c9MnarCfg : InitCfg :=
  { numHidden := 2, inputDim := 2, hiddenDim := [2, 2], outputDim := 1,
    treatLayer := 0, treatNode := [0], missCol := some [0],
    obsIndNode := none, missPattern := MissPat.mnar }

/-- A family of mnar construction inputs parametrized by `num_hidden` and
`treat_layer`, used by claim C10. -/
def mkMnarInit (L tl : ℕ) : InitCfg :=
  { numHidden := L, inputDim := 1, hiddenDim := List.replicate L 1,
    outputDim := 1, treatLayer := tl, treatNode := [0], missCol := some [0],
    obsIndNode := some [0], missPattern := MissPat.mnar }

/-- Sampler configuration with `num_hidden = 2`, `treat_layer = 1` for the
claim C10 witness. -/
def c10Cf : SamCfg :=
  { baseSam with L := 2, tl := 1, mnar := true, obsN := [0] }

/-- C8: both mask applications are idempotent: multiplying a weight matrix by
the 0/1 mnar mask twice equals multiplying once, and re-running the prune
zeroing with no intervening parameter update is a no-op. -/
theorem claim_C8_mask_idempotent (obs : Option (List ℕ)) (pm : ℕ → ℕ → Bool)
    (w w2 : QMat) :
    mnarMaskedW obs (mnarMaskedW obs w) = mnarMaskedW obs w ∧
    pruneMaskedW pm (pruneMaskedW pm w2) = pruneMaskedW pm w2 := by
  constructor
  · funext r c
    unfold mnarMaskedW mnarMaskEntry
    cases obs with
    | none => simp
    | some l => by_cases h : c ∈ l <;> simp [h]
  · funext r c
    unfold pruneMaskedW
    by_cases h : pm r c <;> simp [h]

/-- C6 counterexample: `num_hidden = 3` with `treat_layer = 0` is a valid
mnar configuration (`treat_layer + 2 = 2` is in bounds for the module list of
length 4), yet after construction the obs-column sub-block of the FINAL
module of the chain (index 3, the outcome-producing layer) still holds its
original nonzero weight: the mask is applied to module `treat_layer + 2 = 2`,
which is not the final layer of the chain. -/
theorem claim_C6_counterexample :
    (0 : ℕ) + 2 < 3 + 1 ∧ (0 ∈ ([0] : List ℕ)) ∧
      mnarMaskFam 0 (some [0]) onesW 3 0 0 ≠ 0 := by
  decide

/-- C6 amended: the structural mnar mask zeroes exactly the weight sub-block
connecting the observed-indicator columns to module `treat_layer + 2` (the
layer consuming the observed-indicator layer output); that sub-block is zero
after construction and still zero after the mask re-applications performed by
every forward or likelihood evaluation, for any prune state. -/
theorem claim_C6_amended (tl : ℕ) (obs : List ℕ) (w : WFam) (r c : ℕ)
    (hc : c ∈ obs) (pf : Bool) (pm : ℕ → ℕ → ℕ → Bool) :
    mnarMaskFam tl (some obs) w (tl + 2) r c = 0 ∧
    forwardMaskedW pf pm tl (some obs) (mnarMaskFam tl (some obs) w) (tl + 2) r c = 0 := by
  constructor
  · simp [mnarMaskFam, Function.update_same, mnarMaskedW, mnarMaskEntry, hc]
  · simp [forwardMaskedW, mnarMaskFam, Function.update_same, mnarMaskedW,
      mnarMaskEntry, hc]

/-- Witness for the amended claim C6 at a concrete configuration. -/
theorem claim_C6_amended_witness :
    ((1 : ℕ) ∈ [1]) ∧
      mnarMaskFam 0 (some [1]) onesW 2 0 1 = 0 ∧
      forwardMaskedW false (fun _ _ _ => false) 0 (some [1])
        (mnarMaskFam 0 (some [1]) onesW) 2 0 1 = 0 :=
  ⟨by decide,
   (claim_C6_amended 0 [1] onesW 0 1 (by decide) false (fun _ _ _ => false)).1,
   (claim_C6_amended 0 [1] onesW 0 1 (by decide) false (fun _ _ _ => false)).2⟩

/-- C9: the constructor performs NO configuration validation.  With
`treat_node = [5]` against a width-2 hidden layer it returns normally, and
with `miss_pattern = mnar` but `obs_ind_node = None` it also returns
normally, silently zeroing the whole mask (hence the entire masked weight
matrix) instead of failing fast. -/
theorem claim_C9_no_construction_validation :
    (∃ j ∈ c9BadCfg.treatNode, c9BadCfg.hiddenDim.getD c9BadCfg.treatLayer 0 ≤ j) ∧
    exceptIsOk (stoNetInit c9BadCfg onesW) = true ∧
    c9MnarCfg.obsIndNode = none ∧
    exceptIsOk (stoNetInit c9MnarCfg onesW) = true ∧
    (stoNetInit c9MnarCfg onesW).toOption.map (fun m => m.weights 2 0 0) = some 0 := by
  refine ⟨by decide, by decide, rfl, by decide, ?_⟩
  simp only [stoNetInit, c9MnarCfg, Option.map]
  refine congrArg some ?_
  simp [mnarMaskFam, Function.update_same, mnarMaskedW, mnarMaskEntry, onesW]

/-- C10: in mnar mode both the constructor access `module_list[treat_layer+2]`
(a list of `num_hidden + 1` modules) and the `backward_imputation` access
`hidden_list[treat_layer+1]` (a list of `num_hidden` tensors) are in bounds
exactly when `treat_layer ≤ num_hidden - 2`; at `treat_layer = num_hidden - 1`
the construction raises and the hidden-list access is out of range. -/
theorem claim_C10_mnar_bounds (L tl : ℕ) (w0 : WFam) (cf : SamCfg)
    (hL : cf.L = L) (htl : cf.tl = tl) :
    (tl + 2 ≤ L →
      exceptIsOk (stoNetInit (mkMnarInit L tl) w0) = true ∧
      (initHiddenList cf).get? (tl + 1) ≠ none) ∧
    (tl = L - 1 → 1 ≤ L →
      exceptIsOk (stoNetInit (mkMnarInit L tl) w0) = false ∧
      (initHiddenList cf).get? (tl + 1) = none) := by
  subst hL htl
  have hlen : (initHiddenList cf).length = cf.L := by
    simp [initHiddenList]
  constructor
  · intro h
    have hlt : cf.tl + 2 < cf.L + 1 := by omega
    constructor
    · simp [stoNetInit, mkMnarInit, hlt, exceptIsOk]
    · rw [Ne, List.get?_eq_none, hlen]
      omega
  · intro h1 h2
    have hlt : ¬ (cf.tl + 2 < cf.L + 1) := by omega
    constructor
    · simp [stoNetInit, mkMnarInit, hlt, exceptIsOk]
    · rw [List.get?_eq_none, hlen]
      omega

/-- Witness for claim C10 at `num_hidden = 2`, `treat_layer = 1`. -/
theorem claim_C10_witness :
    exceptIsOk (stoNetInit (mkMnarInit 2 1) onesW) = false ∧
    (initHiddenList c10Cf).get? 2 = none :=
  (claim_C10_mnar_bounds 2 1 onesW c10Cf rfl rfl).2 rfl (by decide)

/-- Below the treatment layer the forward loop performs no overwrite, so the
loop value equals the plain composition of the layer transforms. -/
theorem fwdAfter_eq_chain (c : FwdCfg) (x : QMat) :
    ∀ j, j < c.tl → fwdAfter c x j = chainNoOw c x j := by
  intro j
  induction j with
  | zero =>
    intro h
    simp [fwdAfter, chainNoOw, owF, Nat.ne_of_lt h]
  | succ n ih =>
    intro h
    have hn : n < c.tl := Nat.lt_of_succ_lt h
    simp [fwdAfter, chainNoOw, owF, Nat.ne_of_lt h, ih hn]

/-- The tensor from which the propensity logits are cloned is the
pre-overwrite value at the treatment layer: the plain chain composition. -/
theorem fwdPre_eq_chain (c : FwdCfg) (x : QMat) :
    fwdPre c x c.tl = chainNoOw c x c.tl := by
  cases h : c.tl with
  | zero => simp [fwdPre, chainNoOw]
  | succ t =>
    have ht : t < c.tl := by omega
    simp [fwdPre, chainNoOw, fwdAfter_eq_chain c x t ht]

/-- C7: the propensity score returned by `forward` is computed from the
treatment-layer logits captured BEFORE the realized-treatment overwrite (the
plain chain composition), and it is a valid probability whenever the external
exponential is positive: softmax rows sum to 1 in the categorical case, and
the sigmoid output lies strictly between 0 and 1 in the binary case. -/
theorem claim_C7_propensity (c : FwdCfg) (x : QMat) (_htl : c.tl ≤ c.L)
    (hE : ∀ q : ℚ, 0 < c.expf q) :
    fwdPS c x = psOf c (selCols c.tn (chainNoOw c x c.tl)) ∧
    (c.isCat = true → c.tn ≠ [] →
      ∀ b, (∑ k ∈ Finset.range c.tn.length, fwdPS c x b k) = 1) ∧
    (c.isCat = false → ∀ b k, 0 < fwdPS c x b k ∧ fwdPS c x b k < 1) := by
  have hpre : fwdPS c x = psOf c (selCols c.tn (chainNoOw c x c.tl)) := by
    unfold fwdPS
    rw [fwdPre_eq_chain]
  refine ⟨hpre, ?_, ?_⟩
  · intro hcat hne b
    have hps : fwdPS c x = softmaxQ c.expf c.tn.length (selCols c.tn (fwdPre c x c.tl)) := by
      unfold fwdPS psOf
      rw [if_pos hcat]
    simp only [hps]
    unfold softmaxQ
    rw [← Finset.sum_div]
    have hlen : 0 < c.tn.length := List.length_pos.mpr hne
    have hS : 0 < ∑ k2 ∈ Finset.range c.tn.length,
        c.expf (selCols c.tn (fwdPre c x c.tl) b k2) :=
      Finset.sum_pos (fun i _ => hE _) (Finset.nonempty_range_iff.mpr (Nat.pos_iff_ne_zero.mp hlen))
    exact div_self (ne_of_gt hS)
  · intro hcat b k
    have hps : fwdPS c x b k = sigmoidQ c.expf (selCols c.tn (fwdPre c x c.tl) b k) := by
      unfold fwdPS psOf
      rw [if_neg (by simp [hcat])]
    rw [hps]
    unfold sigmoidQ
    have he : 0 < c.expf (-(selCols c.tn (fwdPre c x c.tl) b k)) := hE _
    constructor
    · apply div_pos one_pos
      linarith
    · rw [div_lt_one (by linarith)]
      linarith

/-- Witness for claim C7 at a concrete categorical configuration. -/
theorem claim_C7_witness :
    fwdPS c7W (fun _ _ => 0) =
      psOf c7W (selCols c7W.tn (chainNoOw c7W (fun _ _ => 0) c7W.tl)) ∧
    (∑ k ∈ Finset.range c7W.tn.length, fwdPS c7W (fun _ _ => 0) 0 k) = 1 := by
  have h := claim_C7_propensity c7W (fun _ _ => 0) (by decide) (fun _ => one_pos)
  exact ⟨h.1, h.2.1 rfl (by decide) 0⟩

/-- C2 counterexample: with `treat_layer = 0` the dispatch of
`likelihood_latent` takes the `layer_index == 0` branch first, so at
`layer_index == treat_layer` the function returns the plain Gaussian term
over ALL columns (value -1 here, the treatment column included) instead of
the claimed composite (value 0 here): the claim fails for
`treat_layer = 0`. -/
theorem claim_C2_counterexample :
    likelihoodLatent c2Cex (fun _ _ => 0) (fun _ _ => 0) c2Hid 0
        (fun _ => 1 / 2) (fun _ _ => 0) 1 1 = -1 ∧
    (-(c2Cex.tloss (selCols c2Cex.tn (c2Cex.mods 0 (c2Hid 0))) (selCols c2Cex.tn (c2Hid 0))) * 1
      + -(sseCols (c2Cex.mods 0 (c2Hid 0)) (c2Hid 0) c2Cex.B
            (Finset.range (c2Cex.tn.headD 0))) / (2 * (1 / 2))
      + -(sseCols (c2Cex.mods 0 (c2Hid 0)) (c2Hid 0) c2Cex.B
            (Finset.Ico (c2Cex.tn.getLastD 0 + 1) (c2Cex.dimv 0))) / (2 * (1 / 2))) = 0 ∧
    (-1 : ℚ) ≠ 0 := by
  refine ⟨?_, ?_, by norm_num⟩
  · simp [likelihoodLatent, c2Cex, sseCols, c2Hid]
  · simp [c2Cex, sseCols, selCols, c2Hid]

/-- C2 amended: for `layer_index == treat_layer` with `treat_layer ≠ 0` (so
the treatment branch is actually reached) and a contiguous treatment block
`[lower .. upper]` inside the layer width, `likelihood_latent` returns the
treatment label loss times `treat_loss_weight` with no sigma division, plus
Gaussian terms `-sse/(2*sigma)` over exactly the complement of the treatment
columns: no treatment column enters a Gaussian term and no non-treatment
column is left out. -/
theorem claim_C2_amended (c : LLCtx) (outLoss : QMat → QMat → ℚ) (fh : QMat)
    (hid : ℕ → QMat) (sig : ℕ → ℚ) (y : QMat) (tw ow : ℚ) (lower upper : ℕ)
    (h0 : c.tl ≠ 0) (hhd : c.tn.headD 0 = lower) (hlast : c.tn.getLastD 0 = upper)
    (hmem : ∀ j, j ∈ c.tn ↔ (lower ≤ j ∧ j ≤ upper))
    (hlu : lower ≤ upper) (hud : upper < c.dimv c.tl) :
    likelihoodLatent c outLoss fh hid c.tl sig y tw ow =
      -(c.tloss (selCols c.tn (c.mods c.tl (hid (c.tl - 1)))) (selCols c.tn (hid c.tl))) * tw
        + -(sseCols (c.mods c.tl (hid (c.tl - 1))) (hid c.tl) c.B
              ((Finset.range (c.dimv c.tl)).filter (fun j => j ∉ c.tn))) / (2 * sig c.tl) := by
  have hset : (Finset.range (c.dimv c.tl)).filter (fun j => j ∉ c.tn) =
      Finset.range lower ∪ Finset.Ico (upper + 1) (c.dimv c.tl) := by
    ext j
    simp only [Finset.mem_filter, Finset.mem_range, Finset.mem_union, Finset.mem_Ico, hmem j]
    omega
  have hdisj : Disjoint (Finset.range lower) (Finset.Ico (upper + 1) (c.dimv c.tl)) := by
    rw [Finset.disjoint_left]
    intro a ha hb
    rw [Finset.mem_range] at ha
    rw [Finset.mem_Ico] at hb
    omega
  have hsse : sseCols (c.mods c.tl (hid (c.tl - 1))) (hid c.tl) c.B
      ((Finset.range (c.dimv c.tl)).filter (fun j => j ∉ c.tn)) =
      sseCols (c.mods c.tl (hid (c.tl - 1))) (hid c.tl) c.B (Finset.range lower)
        + sseCols (c.mods c.tl (hid (c.tl - 1))) (hid c.tl) c.B
            (Finset.Ico (upper + 1) (c.dimv c.tl)) := by
    unfold sseCols
    rw [hset, ← Finset.sum_add_distrib]
    refine Finset.sum_congr rfl fun i _ => ?_
    exact Finset.sum_union hdisj
  simp only [likelihoodLatent, h0, eq_self_iff_true, if_true, if_false, hhd, hlast]
  rw [hsse]
  ring

/-- Witness for the amended claim C2 at a concrete context with
`treat_layer = 1` and treatment block `[1]` in a width-3 layer. -/
theorem claim_C2_amended_witness :
    likelihoodLatent c2Wctx (fun _ _ => 0) (fun _ _ => 0) c2Hid 1
        (fun _ => 1) (fun _ _ => 0) 1 1 =
      -(c2Wctx.tloss (selCols c2Wctx.tn (c2Wctx.mods 1 (c2Hid 0)))
          (selCols c2Wctx.tn (c2Hid 1))) * 1
        + -(sseCols (c2Wctx.mods 1 (c2Hid 0)) (c2Hid 1) c2Wctx.B
              ((Finset.range (c2Wctx.dimv 1)).filter (fun j => j ∉ c2Wctx.tn))) / (2 * 1) :=
  claim_C2_amended c2Wctx (fun _ _ => 0) (fun _ _ => 0) c2Hid (fun _ => 1) (fun _ _ => 0)
    1 1 1 1 (by decide) rfl rfl
    (by
      intro j
      simp [c2Wctx]
      omega)
    (le_refl 1) (by decide)

/-- The sample covariance is symmetric. -/
theorem covQ_symm (B : ℕ) (X : QMat) (p q : ℕ) : covQ B X p q = covQ B X q p := by
  unfold covQ
  congr 1
  exact Finset.sum_congr rfl fun b _ => mul_comm _ _

/-- The conditioning block of the sample covariance is symmetric. -/
theorem s22of_symm (B : ℕ) (X : QMat) (k : ℕ) :
    (s22of B X k).transpose = s22of B X k := by
  ext a1 b1
  simp only [Matrix.transpose_apply, s22of, Matrix.of_apply]
  exact covQ_symm B X _ _

/-- The cross-covariance column and row coincide. -/
theorem s21_eq_s12 (B : ℕ) (X : QMat) (k : ℕ) : s21of B X k = s12of B X k :=
  funext fun _a => covQ_symm B X _ _

/-- The adjugate-based inverse of a symmetric matrix is symmetric. -/
theorem invQ_transpose {k : ℕ} (A : Matrix (Fin k) (Fin k) ℚ)
    (hA : A.transpose = A) : (invQ A).transpose = invQ A := by
  unfold invQ
  rw [Matrix.transpose_smul, Matrix.adjugate_transpose, hA]

/-- Swapping the two vectors across a symmetric matrix inside a quadratic
form. -/
theorem dot_mulVec_symm {k : ℕ} (M : Matrix (Fin k) (Fin k) ℚ)
    (hM : M.transpose = M) (v w : Fin k → ℚ) :
    Matrix.dotProduct v (M.mulVec w) = Matrix.dotProduct w (M.mulVec v) := by
  rw [Matrix.dotProduct_mulVec, ← Matrix.mulVec_transpose, hM, Matrix.dotProduct_comm]

/-- The linear solve is multiplication by the adjugate-based inverse. -/
theorem linSolve_eq {k : ℕ} (A : Matrix (Fin k) (Fin k) ℚ) (v : Fin k → ℚ) :
    linSolve A v = (invQ A).mulVec v := by
  unfold linSolve invQ
  rw [Matrix.smul_mulVec_assoc]

/-- C4: `likelihood_miss` computes, for every missing column, exactly the
Gaussian conditional likelihood of the spec: sample mean and covariance of
the conditioning sub-vector, regression coefficient from the linear solve of
the conditioning sub-covariance against the cross-covariance, the conditional
mean `mu_1 + Sigma_12 Sigma_22^{-1} (X_2 - mu_2)`, the conditional variance
`Sigma_11 - Sigma_12 Sigma_22^{-1} Sigma_21`, and the total
`sum of -sse(actual, cond_mean) / (2 * cond_var)` over all missing columns.
The equality uses the symmetry of the sample covariance, and holds for every
input. -/
theorem claim_C4_likelihood_miss (B : ℕ) (xi : QMat) (missCols : List ℕ)
    (graph : List (List ℕ)) :
    likelihoodMiss B xi missCols graph = likelihoodMissGauss B xi missCols graph := by
  unfold likelihoodMiss likelihoodMissGauss
  refine Finset.sum_congr rfl fun i _ => ?_
  generalize (graph.getD i []) = g
  generalize (missCols.getD i 0) = mc
  cases g with
  | nil => rfl
  | cons c0 rest =>
    have hsym := s22of_symm B (subXof xi (c0 :: rest)) rest.length
    have hmean : ∀ b,
        Matrix.dotProduct (devOf B (subXof xi (c0 :: rest)) rest.length b)
          (linSolve (s22of B (subXof xi (c0 :: rest)) rest.length)
            (s21of B (subXof xi (c0 :: rest)) rest.length)) =
        Matrix.dotProduct (s12of B (subXof xi (c0 :: rest)) rest.length)
          ((invQ (s22of B (subXof xi (c0 :: rest)) rest.length)).mulVec
            (devOf B (subXof xi (c0 :: rest)) rest.length b)) := by
      intro b
      rw [linSolve_eq, dot_mulVec_symm _ (invQ_transpose _ hsym), s21_eq_s12]
    have hvar :
        Matrix.dotProduct
          (linSolve (s22of B (subXof xi (c0 :: rest)) rest.length)
            (s21of B (subXof xi (c0 :: rest)) rest.length))
          (s21of B (subXof xi (c0 :: rest)) rest.length) =
        Matrix.dotProduct (s12of B (subXof xi (c0 :: rest)) rest.length)
          ((invQ (s22of B (subXof xi (c0 :: rest)) rest.length)).mulVec
            (s21of B (subXof xi (c0 :: rest)) rest.length)) := by
      rw [linSolve_eq, Matrix.dotProduct_comm, ← s21_eq_s12]
    unfold missTerm missTermGauss
    simp only [hmean, hvar]

/-- A layer update does not touch the input tensor. -/
theorem foldl_layerUpdate_xcur (cf : SamCfg) (step : ℕ) :
    ∀ (ls : List ℕ) (st : SamSt),
      (ls.foldl (fun s i => layerUpdate cf step i s) st).xcur = st.xcur := by
  intro ls
  induction ls with
  | nil => intro st; rfl
  | cons a t ih =>
    intro st
    rw [List.foldl_cons, ih]
    rfl

/-- The hidden-layer sweep does not touch the input tensor. -/
theorem sweep_xcur (cf : SamCfg) (step : ℕ) (st : SamSt) :
    (sweep cf step st).xcur = st.xcur :=
  foldl_layerUpdate_xcur cf step _ st

/-- The missing-value update leaves every observed entry of the missing
columns, and every non-missing column, unchanged. -/
theorem xUpdate_obs_fixed (cf : SamCfg) (step : ℕ) (st : SamSt) (b c : ℕ)
    (hobs : c ∉ cf.mcol ∨ cf.missInd b (cf.mcol.indexOf c) = 0) :
    (xUpdate cf step st).xcur b c = st.xcur b c := by
  unfold xUpdate
  by_cases hm : cf.hasMiss = true
  · rw [if_pos hm]
    cases hobs with
    | inl h => simp [h]
    | inr h =>
      by_cases hc : c ∈ cf.mcol
      · simp [hc, h]
      · simp [hc]
  · rw [if_neg hm]

/-- C5: after any number of sampler steps, every entry of the input tensor
that is either outside the missing columns or flagged observed
(missing-indicator 0) is unchanged from its value before the call; only
entries flagged missing may change. -/
theorem claim_C5_frame (cf : SamCfg) (_hm : cf.hasMiss = true) (n : ℕ) (b c : ℕ)
    (hobs : c ∉ cf.mcol ∨ cf.missInd b (cf.mcol.indexOf c) = 0) :
    (runSampler cf n).xcur b c = cf.x0 b c := by
  induction n with
  | zero => rfl
  | succ m ih =>
    show (fullStep cf m (runSampler cf m)).xcur b c = cf.x0 b c
    unfold fullStep
    rw [xUpdate_obs_fixed cf m _ b c hobs]
    rw [show (sweep cf m (runSampler cf m)).xcur = (runSampler cf m).xcur from
      sweep_xcur cf m _]
    exact ih

/-- Witness for claim C5: in a configuration with two missing columns and
nonzero gradients, the entry of missing column 0 flagged observed in batch
row 0 keeps its original value after two steps. -/
theorem claim_C5_frame_witness :
    ((0 : ℕ) ∈ c5Cfg.mcol ∧ c5Cfg.missInd 0 (c5Cfg.mcol.indexOf 0) = 0) ∧
    (runSampler c5Cfg 2).xcur 0 0 = c5Cfg.x0 0 0 :=
  ⟨⟨by decide, by norm_num [c5Cfg]⟩,
   claim_C5_frame c5Cfg rfl 2 0 0 (Or.inr (by norm_num [c5Cfg]))⟩

/-- A layer update at layer `l` leaves every other hidden layer unchanged. -/
theorem layerUpdate_hidden_other (cf : SamCfg) (step l m : ℕ) (hne : m ≠ l)
    (st : SamSt) :
    (layerUpdate cf step l st).hidden m = st.hidden m := by
  simp [layerUpdate, Function.update_noteq hne]

/-- A layer update at the treatment layer leaves the treatment columns of
that layer unchanged: their momentum entries are zeroed before the hidden
update. -/
theorem layerUpdate_treat_frozen (cf : SamCfg) (step : ℕ) (st : SamSt) (b j : ℕ)
    (hj : j ∈ cf.tn) :
    (layerUpdate cf step cf.tl st).hidden cf.tl b j = st.hidden cf.tl b j := by
  simp [layerUpdate, Function.update_same, setCols, hj, self_eq_add_right]

/-- No layer update of the sweep moves the treatment columns of the
treatment layer. -/
theorem foldl_treat_frozen (cf : SamCfg) (step : ℕ) (b j : ℕ) (hj : j ∈ cf.tn) :
    ∀ (ls : List ℕ) (st : SamSt),
      (ls.foldl (fun s i => layerUpdate cf step i s) st).hidden cf.tl b j =
        st.hidden cf.tl b j := by
  intro ls
  induction ls with
  | nil => intro st; rfl
  | cons a t ih =>
    intro st
    rw [List.foldl_cons, ih]
    by_cases ha : a = cf.tl
    · subst ha
      exact layerUpdate_treat_frozen cf step st b j hj
    · rw [layerUpdate_hidden_other cf step a cf.tl (Ne.symm ha) st]

/-- The missing-value update does not touch the hidden list. -/
theorem xUpdate_hidden (cf : SamCfg) (step : ℕ) (st : SamSt) :
    (xUpdate cf step st).hidden = st.hidden := by
  unfold xUpdate
  split <;> rfl

/-- Supporting invariant: for every treatment layer at depth at least 1 (the
depths at which the initialization loop performs the treatment overwrite),
the treatment columns of the treatment hidden layer hold exactly the realized
treatment after any number of sampler steps, for every gradient oracle, every
noise stream and every `alpha`. -/
theorem treat_columns_frozen (cf : SamCfg) (h1 : 1 ≤ cf.tl) (n : ℕ) (b j : ℕ)
    (hj : j ∈ cf.tn) :
    (runSampler cf n).hidden cf.tl b j = cf.treat b (cf.tn.indexOf j) := by
  induction n with
  | zero =>
    show (initSt cf).hidden cf.tl b j = _
    have hne : ¬(cf.mnar = true ∧ cf.tl = cf.tl + 1) := by
      rintro ⟨-, h⟩
      omega
    obtain ⟨t, ht⟩ : ∃ t, cf.tl = t + 1 := ⟨cf.tl - 1, by omega⟩
    simp only [initSt]
    rw [if_neg hne, ht]
    show (let z := cf.mods (t + 1) (initHidden cf t);
      if t + 1 = cf.tl then setCols cf.tn cf.treat z else z) b j = _
    rw [if_pos ht.symm]
    simp [setCols, hj]
  | succ m ih =>
    show (fullStep cf m (runSampler cf m)).hidden cf.tl b j = _
    unfold fullStep
    rw [xUpdate_hidden]
    unfold sweep
    rw [foldl_treat_frozen cf m b j hj _ _]
    exact ih

/-- C1 at the failing input `treat_layer = 0`: the initialization loop of
`backward_imputation` runs over layers `1 .. num_hidden - 1` only, so the
treatment overwrite is skipped and the frozen treatment columns hold the
plain forward value of the first module (here 5), not the realized treatment
(here 7), contradicting the claim and end-to-end scenario A of the spec. -/
theorem claim_C1_treat_layer_zero :
    (runSampler c1Cfg 1).hidden 0 0 0 = 5 ∧
    c1Cfg.treat 0 (c1Cfg.tn.indexOf 0) = 7 ∧
    (runSampler c1Cfg 1).hidden 0 0 0 ≠ c1Cfg.treat 0 (c1Cfg.tn.indexOf 0) := by
  have h1 : (runSampler c1Cfg 1).hidden 0 0 0 = 5 := by
    show (fullStep c1Cfg 0 (initSt c1Cfg)).hidden 0 0 0 = 5
    simp [fullStep, xUpdate, sweep, layerUpdate, initSt, initHidden, setCols,
      c1Cfg, baseSam, List.range_succ, Function.update_same]
  refine ⟨h1, rfl, ?_⟩
  rw [h1]
  show (5 : ℚ) ≠ 7
  norm_num

/-- C3 counterexample: at `alpha = 0` (so the noise factor
`sqrt(2*alpha) = 0`), one sampler step moves the free hidden column by
`lr * (lr * grad) = 1/4`, while the plain gradient-ascent reference moves it
by `lr * grad = 1/2`: the trajectories differ already at the first step,
because the sampler feeds the gradient through the momentum and multiplies by
`lr` twice. -/
theorem claim_C3_counterexample :
    c3Cfg.alpha = 0 ∧ c3Cfg.nscale * c3Cfg.nscale = 2 * c3Cfg.alpha ∧
    (runSampler c3Cfg 1).hidden 0 0 1 = 1 / 4 ∧
    (gaRun c3Cfg 1).hidden 0 0 1 = 1 / 2 ∧
    ((1 : ℚ) / 4) ≠ 1 / 2 := by
  refine ⟨rfl, by show (0 : ℚ) * 0 = 2 * 0; norm_num, ?_, ?_, by norm_num⟩
  · show (fullStep c3Cfg 0 (initSt c3Cfg)).hidden 0 0 1 = 1 / 4
    simp [fullStep, xUpdate, sweep, layerUpdate, initSt, initHidden, setCols,
      c3Cfg, baseSam, List.range_succ, Function.update_same]
    norm_num
  · show (gaXUpdate c3Cfg 0 (gaSweep c3Cfg 0 (initSt c3Cfg))).hidden 0 0 1 = 1 / 2
    simp [gaXUpdate, gaSweep, gaLayerUpdate, initSt, initHidden, setCols,
      c3Cfg, baseSam, List.range_succ, Function.update_same]

/-- At `alpha = 0` and noise factor 0 the layer update coincides with the
deterministic heavy-ball update. -/
theorem layerUpdate_eq_hb (cf : SamCfg) (h0 : cf.alpha = 0) (hs : cf.nscale = 0)
    (step l : ℕ) (st : SamSt) :
    layerUpdate cf step l st = hbLayerUpdate cf step l st := by
  have hpt : ∀ b j, (1 - cf.alpha) * st.mom l b j
        + cf.lr l * cf.grad step l st b j + cf.noise step l b j * cf.nscale
      = st.mom l b j + cf.lr l * cf.grad step l st b j := by
    intro b j
    rw [h0, hs]
    ring
  simp only [layerUpdate, hbLayerUpdate, hpt]

/-- At `alpha = 0` and noise factor 0 the missing-value update coincides with
the deterministic heavy-ball update. -/
theorem xUpdate_eq_hb (cf : SamCfg) (h0 : cf.alpha = 0) (hs : cf.nscale = 0)
    (step : ℕ) (st : SamSt) :
    xUpdate cf step st = hbXUpdate cf step st := by
  have hpt : ∀ b k, (1 - cf.alpha) * st.xmom b k
        + cf.missLr * selCols cf.mcol (cf.gradX step st) b k
        + cf.noiseX step b k * cf.nscale
      = st.xmom b k + cf.missLr * selCols cf.mcol (cf.gradX step st) b k := by
    intro b k
    rw [h0, hs]
    ring
  simp only [xUpdate, hbXUpdate, hpt]

/-- At `alpha = 0` and noise factor 0 the sweep coincides with the
deterministic heavy-ball sweep. -/
theorem sweep_eq_hb (cf : SamCfg) (h0 : cf.alpha = 0) (hs : cf.nscale = 0)
    (step : ℕ) (st : SamSt) :
    sweep cf step st = hbSweep cf step st := by
  unfold sweep hbSweep
  have h : (fun (s : SamSt) (l : ℕ) => layerUpdate cf step l s)
      = (fun s l => hbLayerUpdate cf step l s) :=
    funext fun s => funext fun l => layerUpdate_eq_hb cf h0 hs step l s
  rw [h]

/-- C3 amended: with `alpha = 0` the Gaussian factor `sqrt(2*alpha)` is 0, so
`backward_imputation` ignores the noise stream entirely and is deterministic;
its trajectory equals, at every step and layer, that of the deterministic
heavy-ball reference that accumulates momentum `m += lr * grad` and updates
each latent by `lr * m` (full momentum accumulation, no decay) — not that of
plain gradient ascent. -/
theorem claim_C3_amended (cf : SamCfg) (h0 : cf.alpha = 0)
    (hs : cf.nscale * cf.nscale = 2 * cf.alpha) (n : ℕ) :
    runSampler cf n = hbRun cf n := by
  have hs0 : cf.nscale = 0 := by
    have h : cf.nscale * cf.nscale = 0 := by
      rw [hs, h0]
      ring
    exact mul_self_eq_zero.mp h
  induction n with
  | zero => rfl
  | succ m ih =>
    show xUpdate cf m (sweep cf m (runSampler cf m)) =
      hbXUpdate cf m (hbSweep cf m (hbRun cf m))
    rw [ih, sweep_eq_hb cf h0 hs0, xUpdate_eq_hb cf h0 hs0]

/-- Witness for the amended claim C3: a configuration with a nonzero noise
stream but `alpha = 0` follows the deterministic heavy-ball trajectory. -/
theorem claim_C3_amended_witness :
    c3CfgN.alpha = 0 ∧ c3CfgN.nscale * c3CfgN.nscale = 2 * c3CfgN.alpha ∧
    runSampler c3CfgN 2 = hbRun c3CfgN 2 :=
  ⟨rfl, by show (0 : ℚ) * 0 = 2 * 0; norm_num,
   claim_C3_amended c3CfgN rfl (by show (0 : ℚ) * 0 = 2 * 0; norm_num) 2⟩

end CStoNet
